import Mathlib

/-!
# Verification of the mini search engine (src/main.go)

Shallow embedding of the Go program in `src/main.go`:

* Go `float64` values are modelled as real numbers (`ℝ`); `math.Log` is
  `Real.log`.
* A Go `map` is modelled as an association list whose entries are kept in
  insertion order (Go map iteration order is unspecified; any fixed order is
  an admissible refinement).
* `len(s)` on a Go string counts bytes; `String.length` counts characters.
  Every string these theorems evaluate is ASCII, where the two agree.
* Go `strings.ToLower` / `unicode.IsSpace` act on Unicode; the embedding
  uses `Char.toLower` / `Char.isWhitespace`, which agree on ASCII input.
-/

namespace MiniSearch

/-- Go struct `Document` (src/main.go lines 12-16). -/
structure Document where
  ID : Int
  Content : String
  Score : ℝ

/-- Go `type InvertedIndex map[string][]int` (line 18). A missing key is
`none`; `BuildInvertedIndex` never stores an empty posting list. -/
def InvertedIndex : Type := String → Option (List Int)

/-- Go struct `SearchEngine` (lines 20-25). -/
structure SearchEngine where
  index : InvertedIndex
  documents : List Document
  avgDocLength : ℝ
  k1 : ℝ
  k2 : ℝ

/-- `strings.ToLower`, restricted to the ASCII case mapping. -/
def lowerStr (s : String) : String :=
  String.mk (s.data.map Char.toLower)

/-- Accumulator for `fieldsAux`: `acc` holds the characters of the word
currently being read, in reverse order. -/
def fieldsAux : List Char → List Char → List String
  | [], acc => if acc = [] then [] else [String.mk acc.reverse]
  | c :: rest, acc =>
    if c.isWhitespace then
      if acc = [] then fieldsAux rest [] else String.mk acc.reverse :: fieldsAux rest []
    else
      fieldsAux rest (c :: acc)

/-- `strings.Fields`: split on runs of whitespace, dropping empty words. -/
def fields (s : String) : List String := fieldsAux s.data []

/-- `strings.Fields(strings.ToLower(s))`, the tokenization used at lines
31, 68 and 80 of src/main.go. -/
def tokenize (s : String) : List String := fields (lowerStr s)

/-- Core loop of `strings.Count`: number of non-overlapping occurrences of
`needle` (nonempty) in the remaining text, scanning left to right and
advancing past each match. `skip > 0` means the scanner is still inside the
previously counted match, so no new match may start here. -/
def countOccAux (needle : List Char) : List Char → Nat → Nat
  | [], _ => 0
  | _ :: rest, skip + 1 => countOccAux needle rest skip
  | c :: rest, 0 =>
    if needle.isPrefixOf (c :: rest) then
      1 + countOccAux needle rest (needle.length - 1)
    else
      countOccAux needle rest 0

/-- Go `strings.Count(s, sub)`: non-overlapping occurrences of `sub` in `s`;
for an empty `sub` it returns 1 + the number of runes in `s`. -/
def stringsCount (s sub : String) : Nat :=
  if sub.data = [] then s.data.length + 1 else countOccAux sub.data s.data 0

/-- The term frequency both scorers compute inline (lines 51 and 67):
`strings.Count(strings.ToLower(doc.Content), token)`. -/
def termFrequency (doc : Document) (token : String) : Nat :=
  stringsCount (lowerStr doc.Content) token

/-- `se.documents[docID]` (lines 51, 67, 68, 87). Go panics on an
out-of-bounds index; the model returns a dummy document there (claim C10
shows the dummy branch is never taken for engines built by the program). -/
def getDoc (docs : List Document) (i : Int) : Document :=
  if h : 0 ≤ i ∧ i.toNat < docs.length then docs.get ⟨i.toNat, h.2⟩
  else ⟨0, String.mk [], 0⟩

/-- One iteration of the inner loop of `BuildInvertedIndex` (lines 33-38):
make an empty posting list if the token is new, then append `doc.ID`. -/
def addPosting (idx : InvertedIndex) (token : String) (id : Int) : InvertedIndex :=
  fun t => if t = token then some (((idx token).getD []) ++ [id]) else idx t

/-- Go `BuildInvertedIndex` (lines 27-42). -/
def BuildInvertedIndex (documents : List Document) : InvertedIndex :=
  documents.foldl
    (fun idx doc =>
      (tokenize doc.Content).foldl (fun idx token => addPosting idx token doc.ID) idx)
    (fun _ => none)

/-- The transient score map `map[int]float64`, as an association list in
insertion order. -/
def ScoreMap : Type := List (Int × ℝ)

/-- Map lookup `scores[docID]`. -/
def smLookup : ScoreMap → Int → Option ℝ
  | [], _ => none
  | (k, v) :: rest, d => if k = d then some v else smLookup rest d

/-- `scores[docID] += v` (a missing key starts at 0). -/
def smAdd : ScoreMap → Int → ℝ → ScoreMap
  | [], d, v => [(d, v)]
  | (k, w) :: rest, d, v =>
    if k = d then (k, w + v) :: rest else (k, w) :: smAdd rest d v

/-- Shared shape of both scoring loops (lines 47-55 and 63-74): for each
query token found in the index, add `contrib token docSet docID` to the
score of each entry `docID` of the posting list `docSet`. -/
def calcScores (contrib : String → List Int → Int → ℝ) (index : InvertedIndex)
    (tokens : List String) : ScoreMap :=
  tokens.foldl
    (fun m token =>
      match index token with
      | none => m
      | some docSet => docSet.foldl (fun m d => smAdd m d (contrib token docSet d)) m)
    []

/-- The per-document amount added by one TF-IDF inner-loop iteration
(lines 49-52): `tf * idf` with `idf = ln(len(documents)/len(docSet))`. -/
noncomputable def tfidfContrib (se : SearchEngine) (token : String)
    (docSet : List Int) (docID : Int) : ℝ :=
  (termFrequency (getDoc se.documents docID) token : ℝ) *
    Real.log ((se.documents.length : ℝ) / (docSet.length : ℝ))

/-- Go `CalculateTFIDFScore` (lines 44-58). -/
noncomputable def CalculateTFIDFScore (se : SearchEngine) (tokens : List String) : ScoreMap :=
  calcScores (tfidfContrib se) se.index tokens

/-- The per-document amount added by one BM25 inner-loop iteration
(lines 65-71), with the source's exact parenthesization:
`idf = Log(float64(len(documents)-len(docSet)) + 0.5) / (float64(len(docSet)) + 0.5)`,
then `idf * numerator / denominator`. -/
noncomputable def bm25Contrib (se : SearchEngine) (token : String)
    (docSet : List Int) (docID : Int) : ℝ :=
  let idf := Real.log ((se.documents.length : ℝ) - (docSet.length : ℝ) + 0.5) /
    ((docSet.length : ℝ) + 0.5)
  let tf := (termFrequency (getDoc se.documents docID) token : ℝ)
  let dl := ((tokenize (getDoc se.documents docID).Content).length : ℝ)
  let numerator := (se.k1 + 1) * tf * (se.k1 + 1) /
    (tf + se.k1 * (1 - se.k2 + se.k2 * dl / se.avgDocLength))
  let denominator := tf + se.k1 * (1 - se.k2 + se.k2 * dl / se.avgDocLength)
  idf * numerator / denominator

/-- Go `CalculateBM25Score` (lines 60-77). -/
noncomputable def CalculateBM25Score (se : SearchEngine) (tokens : List String) : ScoreMap :=
  calcScores (bm25Contrib se) se.index tokens

/-- The comparison `Search` sorts by (line 90), made inclusive: the Go
unstable sort with strict `>` returns some permutation that is sorted with
respect to `≥`; the model picks insertion sort by `≥`, one such result. -/
def scoreGE (a b : Document) : Prop := b.Score ≤ a.Score

noncomputable instance : DecidableRel scoreGE := fun a b =>
  Real.decidableLE b.Score a.Score

instance : IsTotal Document scoreGE := ⟨fun a b => le_total b.Score a.Score⟩

instance : IsTrans Document scoreGE := ⟨fun _ _ _ h1 h2 => le_trans h2 h1⟩

/-- Go `Search` (lines 79-96): tokenize the query, score with TF-IDF, turn
the score map into result documents, sort by descending score, keep the
first 10. -/
noncomputable def Search (se : SearchEngine) (query : String) : List Document :=
  let tokens := tokenize query
  let scores := CalculateTFIDFScore se tokens
  let results := scores.map (fun p => Document.mk p.1 (getDoc se.documents p.1).Content p.2)
  let sorted := List.insertionSort scoreGE results
  if sorted.length > 10 then sorted.take 10 else sorted

/-- The engine construction in `main` (lines 133-138): note that the average
document length is computed from `len(doc.Content)` (the byte length of the
raw content), not from a token count. -/
noncomputable def buildEngine (documents : List Document) : SearchEngine :=
  { index := BuildInvertedIndex documents
    documents := documents
    avgDocLength :=
      (documents.foldl (fun acc doc => acc + (doc.Content.length : ℝ)) 0) /
        (documents.length : ℝ)
    k1 := 1.2
    k2 := 0.75 }

/-! ## Specification-side definitions

These definitions restate score values the way the spec describes them, to
be compared against the operational score maps above. -/

/-- `d` occurs in the posting list of some query token that is present in
the index — exactly the documents the scoring loops ever touch. -/
def touched (index : InvertedIndex) (tokens : List String) (d : Int) : Prop :=
  ∃ t ∈ tokens, ∃ ds, index t = some ds ∧ d ∈ ds

/-- Closed-form total built from a per-iteration contribution: each query
token `t` found in the index contributes once per occurrence of `d` in its
posting list. -/
noncomputable def contribTotal (contrib : String → List Int → Int → ℝ)
    (index : InvertedIndex) (tokens : List String) (d : Int) : ℝ :=
  (tokens.map (fun t =>
    match index t with
    | none => 0
    | some ds => ((ds.count d : ℕ) : ℝ) * contrib t ds d)).sum

/-- Number of distinct documents of the corpus whose tokenized content
contains `t` (the claim C1 reading of `|postings(t)|`). -/
def docsContaining (docs : List Document) (t : String) : Nat :=
  (docs.filter (fun doc => (tokenize doc.Content).contains t)).length

/-- Claim C1 as stated: per-token TF-IDF term
`termFrequency(d, t) * ln(totalDocuments / |postings(t)|)` counted once when
`d ∈ postings(t)`, with `|postings(t)|` the number of distinct documents
containing `t`. -/
noncomputable def tfidfStatedTerm (se : SearchEngine) (t : String) (d : Int) : ℝ :=
  match se.index t with
  | none => 0
  | some ds =>
    if d ∈ ds then
      (termFrequency (getDoc se.documents d) t : ℝ) *
        Real.log ((se.documents.length : ℝ) / (docsContaining se.documents t : ℝ))
    else 0

/-- Claim C1 as stated: the full TF-IDF score of `d`. -/
noncomputable def tfidfStatedTotal (se : SearchEngine) (tokens : List String) (d : Int) : ℝ :=
  (tokens.map (fun t => tfidfStatedTerm se t d)).sum

/-- Amended claim C1: per-token TF-IDF term — the multiplicity of `d` in the
posting list times `termFrequency(d, t) * ln(totalDocuments / len(postings(t)))`,
with `len` counting duplicate insertions. -/
noncomputable def tfidfClaimTerm (se : SearchEngine) (t : String) (d : Int) : ℝ :=
  match se.index t with
  | none => 0
  | some ds =>
    ((ds.count d : ℕ) : ℝ) * ((termFrequency (getDoc se.documents d) t : ℝ) *
      Real.log ((se.documents.length : ℝ) / (ds.length : ℝ)))

/-- Amended claim C1: the full TF-IDF score of `d`. -/
noncomputable def tfidfClaimTotal (se : SearchEngine) (tokens : List String) (d : Int) : ℝ :=
  (tokens.map (fun t => tfidfClaimTerm se t d)).sum

/-- Claim C4: per-token BM25 term, written with the claim's arithmetic
`idf * (((k1+1) * tf * (k1+1)) / (tf + k1*norm) / (tf + k1*norm))`, counted
once per occurrence of `d` in the posting list. -/
noncomputable def bm25ClaimTerm (se : SearchEngine) (t : String) (d : Int) : ℝ :=
  match se.index t with
  | none => 0
  | some ds =>
    let tf := (termFrequency (getDoc se.documents d) t : ℝ)
    let dl := ((tokenize (getDoc se.documents d).Content).length : ℝ)
    let norm := 1 - se.k2 + se.k2 * dl / se.avgDocLength
    ((ds.count d : ℕ) : ℝ) *
      (Real.log ((se.documents.length : ℝ) - (ds.length : ℝ) + 0.5) /
          ((ds.length : ℝ) + 0.5) *
        ((se.k1 + 1) * tf * (se.k1 + 1) / (tf + se.k1 * norm) / (tf + se.k1 * norm)))

/-- Claim C4: the full BM25 score of `d`. -/
noncomputable def bm25ClaimTotal (se : SearchEngine) (tokens : List String) (d : Int) : ℝ :=
  (tokens.map (fun t => bm25ClaimTerm se t d)).sum

/-- Claim C3 (and spec 4.3): the mean over the corpus of per-document token
counts, the value the spec says `averageDocumentLength` holds. -/
noncomputable def specMeanTokenCount (docs : List Document) : ℝ :=
  (docs.map (fun doc => ((tokenize doc.Content).length : ℝ))).sum / (docs.length : ℝ)

/-- Two-document corpus in which the token `a` occurs twice in document 0:
its posting list for `a` is `[0, 0, 1]`. -/
noncomputable def engA : SearchEngine :=
  buildEngine [⟨0, ("a a"), 0⟩, ⟨1, ("a"), 0⟩]

/-- Corpus for claim C5: `cat` occurs in document 1 once as a standalone
token and once inside the longer word `Category`. -/
def docs5 : List Document :=
  [⟨0, ("cat"), 0⟩, ⟨1, ("the Category cat"), 0⟩, ⟨2, ("dog"), 0⟩]

/-- The engine `main` would build over `docs5`. -/
noncomputable def eng5 : SearchEngine := buildEngine docs5

/-! ## Score-map lemmas -/

theorem smLookup_smAdd (m : ScoreMap) (d : Int) (v : ℝ) (e : Int) :
    smLookup (smAdd m d v) e =
      if e = d then some ((smLookup m d).getD 0 + v) else smLookup m e := by
  induction m with
  | nil =>
    by_cases h : e = d
    · subst h; simp [smAdd, smLookup]
    · simp [smAdd, smLookup, h, Ne.symm h]
  | cons p rest ih =>
    obtain ⟨k, w⟩ := p
    by_cases hkd : k = d
    · subst hkd
      by_cases h : e = k
      · subst h; simp [smAdd, smLookup]
      · simp [smAdd, smLookup, h, Ne.symm h]
    · by_cases hke : k = e
      · subst hke
        simp [smAdd, smLookup, hkd]
      · simp [smAdd, smLookup, hkd, hke, ih]

theorem smLookup_foldl_add (c : Int → ℝ) (ds : List Int) :
    ∀ (m : ScoreMap) (e : Int),
      smLookup (ds.foldl (fun m d => smAdd m d (c d)) m) e =
        if e ∈ ds then some ((smLookup m e).getD 0 + ((ds.count e : ℕ) : ℝ) * c e)
        else smLookup m e := by
  induction ds with
  | nil => intro m e; simp
  | cons d rest ih =>
    intro m e
    simp only [List.foldl_cons]
    rw [ih]
    by_cases hed : e = d
    · subst hed
      by_cases her : e ∈ rest
      · rw [if_pos her, if_pos (List.mem_cons_self e rest), smLookup_smAdd, if_pos rfl,
          List.count_cons_self]
        simp only [Option.getD_some]
        push_cast
        ring_nf
      · rw [if_neg her, if_pos (List.mem_cons_self e rest), smLookup_smAdd, if_pos rfl,
          List.count_cons_self, List.count_eq_zero.mpr her]
        push_cast
        ring_nf
    · have hmem : e ∈ d :: rest ↔ e ∈ rest := by
        simp [List.mem_cons, hed]
      have hcnt : (d :: rest).count e = rest.count e := List.count_cons_of_ne hed rest
      rw [smLookup_smAdd, if_neg hed, hcnt]
      by_cases her : e ∈ rest
      · rw [if_pos her, if_pos (hmem.mpr her)]
      · rw [if_neg her, if_neg (fun h => her (hmem.mp h))]

theorem contribTotal_eq_zero (contrib : String → List Int → Int → ℝ)
    (index : InvertedIndex) (tokens : List String) (d : Int)
    (h : ¬ touched index tokens d) :
    contribTotal contrib index tokens d = 0 := by
  unfold contribTotal
  apply List.sum_eq_zero
  intro x hx
  simp only [List.mem_map] at hx
  obtain ⟨t, ht, rfl⟩ := hx
  cases hidx : index t with
  | none => simp
  | some ds =>
    have hd : d ∉ ds := fun hd => h ⟨t, ht, ds, hidx, hd⟩
    simp [List.count_eq_zero.mpr hd]

open Classical in
theorem calcScores_aux (contrib : String → List Int → Int → ℝ)
    (index : InvertedIndex) (d : Int) (tokens : List String) :
    ∀ m : ScoreMap,
      smLookup (tokens.foldl (fun m token =>
        match index token with
        | none => m
        | some ds => ds.foldl (fun m e => smAdd m e (contrib token ds e)) m) m) d =
      if touched index tokens d
      then some ((smLookup m d).getD 0 + contribTotal contrib index tokens d)
      else smLookup m d := by
  induction tokens with
  | nil =>
    intro m
    have : ¬ touched index [] d := by rintro ⟨t, ht, _⟩; exact absurd ht (List.not_mem_nil t)
    simp [this]
  | cons t ts ih =>
    intro m
    simp only [List.foldl_cons]
    cases hidx : index t with
    | none =>
      simp only [hidx]
      rw [ih m]
      have htouch : touched index (t :: ts) d ↔ touched index ts d := by
        constructor
        · rintro ⟨t1, ht1, ds, hds, hmem⟩
          rcases List.mem_cons.mp ht1 with rfl | h1
          · rw [hidx] at hds; exact absurd hds (by simp)
          · exact ⟨t1, h1, ds, hds, hmem⟩
        · rintro ⟨t1, ht1, ds, hds, hmem⟩
          exact ⟨t1, List.mem_cons_of_mem t ht1, ds, hds, hmem⟩
      have htot : contribTotal contrib index (t :: ts) d =
          contribTotal contrib index ts d := by
        simp [contribTotal, hidx]
      rw [htot]
      by_cases hts : touched index ts d
      · rw [if_pos hts, if_pos (htouch.mpr hts)]
      · rw [if_neg hts, if_neg (fun h => hts (htouch.mp h))]
    | some ds =>
      simp only [hidx]
      rw [ih]
      have htouch : touched index (t :: ts) d ↔ d ∈ ds ∨ touched index ts d := by
        constructor
        · rintro ⟨t1, ht1, ds1, hds1, hmem⟩
          rcases List.mem_cons.mp ht1 with rfl | h1
          · rw [hidx] at hds1
            exact Or.inl (by injection hds1 with h; exact h ▸ hmem)
          · exact Or.inr ⟨t1, h1, ds1, hds1, hmem⟩
        · rintro (hmem | ⟨t1, ht1, ds1, hds1, hmem⟩)
          · exact ⟨t, List.mem_cons_self t ts, ds, hidx, hmem⟩
          · exact ⟨t1, List.mem_cons_of_mem t ht1, ds1, hds1, hmem⟩
      have htot : contribTotal contrib index (t :: ts) d =
          ((ds.count d : ℕ) : ℝ) * contrib t ds d + contribTotal contrib index ts d := by
        simp [contribTotal, hidx]
      rw [htot, smLookup_foldl_add]
      by_cases hmem : d ∈ ds
      · rw [if_pos hmem]
        by_cases hts : touched index ts d
        · rw [if_pos hts, if_pos (htouch.mpr (Or.inl hmem))]
          simp only [Option.getD_some]
          ring_nf
        · rw [if_neg hts, if_pos (htouch.mpr (Or.inl hmem)),
            contribTotal_eq_zero contrib index ts d hts]
          ring_nf
      · rw [if_neg hmem]
        have hc0 : ((ds.count d : ℕ) : ℝ) = 0 := by
          rw [List.count_eq_zero.mpr hmem]; simp
        by_cases hts : touched index ts d
        · rw [if_pos hts, if_pos (htouch.mpr (Or.inr hts)), hc0]
          ring_nf
        · rw [if_neg hts, if_neg (fun h => (htouch.mp h).elim hmem hts)]

open Classical in
theorem calcScores_lookup (contrib : String → List Int → Int → ℝ)
    (index : InvertedIndex) (tokens : List String) (d : Int) :
    smLookup (calcScores contrib index tokens) d =
      if touched index tokens d then some (contribTotal contrib index tokens d) else none := by
  unfold calcScores
  rw [calcScores_aux]
  by_cases h : touched index tokens d
  · rw [if_pos h, if_pos h]
    simp [smLookup]
  · rw [if_neg h, if_neg h]
    simp [smLookup]

theorem contribTotal_tfidf (se : SearchEngine) (tokens : List String) (d : Int) :
    contribTotal (tfidfContrib se) se.index tokens d = tfidfClaimTotal se tokens d := rfl

theorem contribTotal_bm25 (se : SearchEngine) (tokens : List String) (d : Int) :
    contribTotal (bm25Contrib se) se.index tokens d = bm25ClaimTotal se tokens d := by
  unfold contribTotal bm25ClaimTotal
  congr 1
  apply List.map_congr_left
  intro t _
  cases hidx : se.index t with
  | none => simp [bm25ClaimTerm, hidx]
  | some ds =>
    simp only [hidx, bm25Contrib, bm25ClaimTerm]
    ring

/-! ## Claim theorems -/

open Classical in
/-- Claim C1 (amended): for every engine and query token list, the TF-IDF
score map contains exactly the documents occurring in the posting list of
some query token present in the index, and such a document `d` has score
equal to the sum, over the query tokens `t` present in the index, of the
multiplicity of `d` in `postings(t)` times
`termFrequency(d, t) * ln(totalDocuments / len(postings(t)))`, where
`len(postings(t))` counts duplicate insertions. -/
theorem tfidf_score_amended (se : SearchEngine) (tokens : List String) (d : Int) :
    smLookup (CalculateTFIDFScore se tokens) d =
      if touched se.index tokens d then some (tfidfClaimTotal se tokens d) else none := by
  rw [CalculateTFIDFScore, calcScores_lookup, contribTotal_tfidf]

/-- Claim C1, counterexample to the claim as stated: over the two-document
corpus `[{0, "a a"}, {1, "a"}]` and query token list `["a"]`, document 0
contains the query token, yet its TF-IDF score (4 · ln(2/3), from the
duplicated posting list `[0, 0, 1]`) differs from the claimed
`termFrequency(0, "a") · ln(totalDocuments / #distinct docs containing "a")
= 2 · ln(2/2) = 0`. -/
theorem tfidf_score_claim_counterexample :
    touched engA.index [("a")] 0 ∧
    smLookup (CalculateTFIDFScore engA [("a")]) 0 ≠ some (tfidfStatedTotal engA [("a")] 0) := by
  have hidx : engA.index ("a") = some [0, 0, 1] := by decide
  have htouch : touched engA.index [("a")] 0 :=
    ⟨("a"), List.mem_singleton.mpr rfl, [0, 0, 1], hidx, by decide⟩
  refine ⟨htouch, ?_⟩
  have htf : termFrequency (getDoc engA.documents 0) ("a") = 2 := by decide
  have hlen : engA.documents.length = 2 := rfl
  have hlhs : smLookup (CalculateTFIDFScore engA [("a")]) 0 =
      some (2 * ((2 : ℝ) * Real.log ((2 : ℝ) / 3))) := by
    rw [CalculateTFIDFScore, calcScores_lookup, if_pos htouch]
    simp only [contribTotal, List.map_cons, List.map_nil, List.sum_cons, List.sum_nil, hidx,
      tfidfContrib, htf, hlen]
    norm_num
  have hrhs : tfidfStatedTotal engA [("a")] 0 = 0 := by
    have hdc : docsContaining engA.documents ("a") = 2 := by decide
    simp only [tfidfStatedTotal, List.map_cons, List.map_nil, List.sum_cons, List.sum_nil,
      tfidfStatedTerm, hidx, hdc, htf, hlen]
    norm_num
  rw [hlhs, hrhs]
  have hlog : Real.log ((2 : ℝ) / 3) < 0 := Real.log_neg (by norm_num) (by norm_num)
  simp only [Ne, Option.some.injEq]
  intro h
  nlinarith

open Classical in
/-- Claim C4: for every engine and query token list, the BM25 score map
contains exactly the documents occurring in the posting list of some query
token present in the index, each accumulating — once per occurrence in the
posting list — the term
`ln(totalDocuments - |postings(t)| + 0.5) / (|postings(t)| + 0.5)` times
`((k1+1) * tf * (k1+1)) / (tf + k1*norm) / (tf + k1*norm)` with
`tf = termFrequency(d, t)`, `dl` the token count of `d` and
`norm = 1 - k2 + k2 * dl / averageDocumentLength`; and the engine built by
`main` fixes `k1 = 1.2` and `k2 = 0.75`. -/
theorem bm25_score_formula :
    (∀ (se : SearchEngine) (tokens : List String) (d : Int),
        smLookup (CalculateBM25Score se tokens) d =
          if touched se.index tokens d then some (bm25ClaimTotal se tokens d) else none)
    ∧ ∀ docs : List Document, (buildEngine docs).k1 = 1.2 ∧ (buildEngine docs).k2 = 0.75 := by
  refine ⟨fun se tokens d => ?_, fun docs => ⟨rfl, rfl⟩⟩
  rw [CalculateBM25Score, calcScores_lookup, contribTotal_bm25]

/-- Claim C2, evaluation at the failing input: over a corpus whose single
document contains the term `blah` twice, `BuildInvertedIndex` stores the
document id twice in the posting list, violating the at-most-once
invariant. -/
theorem build_index_duplicates_eval :
    BuildInvertedIndex [⟨0, ("Lorem ipsum blah blah fox"), 0⟩] ("blah") = some [0, 0] := by
  decide

/-- Claim C3, evaluation at the failing input: for the one-document corpus
`[{0, "a a"}]`, the engine built by `main` sets `avgDocLength` to 3 — the
character count of the raw content — while the mean token count the claim
requires is 2. -/
theorem avg_doc_length_eval :
    (buildEngine [⟨0, ("a a"), 0⟩]).avgDocLength = 3 ∧
    specMeanTokenCount [⟨0, ("a a"), 0⟩] = 2 ∧
    (3 : ℝ) ≠ 2 := by
  refine ⟨?_, ?_, by norm_num⟩
  · simp only [buildEngine, List.foldl_cons, List.foldl_nil, List.length_cons, List.length_nil]
    norm_num [String.length]
  · have h : (tokenize ("a a")).length = 2 := by decide
    simp only [specMeanTokenCount, List.map_cons, List.map_nil, List.sum_cons, List.sum_nil,
      List.length_cons, List.length_nil, h]
    norm_num

/-- Claim C5: the term frequency both scorers use is the non-overlapping
count of the term as a substring of the lowercased raw content — case
insensitive in the content, and counting terms that sit inside longer
words. Concretely, in document 1 of `docs5` (`"the Category cat"`), `cat`
has term frequency 2 (once inside `Category`, once as a token) although it
occurs only once as an exact token; both scorers feed the 2 into their
formulas. -/
theorem term_frequency_substring :
    (∀ (doc : Document) (t : String), lowerStr t = t →
        termFrequency doc t = stringsCount (lowerStr doc.Content) (lowerStr t))
    ∧ termFrequency ⟨1, ("the Category cat"), 0⟩ ("cat") = 2
    ∧ ((tokenize ("the Category cat")).filter (fun w => w = ("cat" : String))).length = 1
    ∧ smLookup (CalculateTFIDFScore eng5 [("cat")]) 1 = some ((2 : ℝ) * Real.log ((3 : ℝ) / 2))
    ∧ smLookup (CalculateBM25Score eng5 [("cat")]) 1 =
        some (Real.log ((3 : ℝ) - 2 + 0.5) / ((2 : ℝ) + 0.5) *
          ((1.2 + 1) * 2 * (1.2 + 1) / ((2 : ℝ) + 1.2 * (1 - 0.75 + 0.75 * 3 / (22 / 3))) /
            ((2 : ℝ) + 1.2 * (1 - 0.75 + 0.75 * 3 / (22 / 3))))) := by
  have hidx : eng5.index ("cat") = some [0, 1] := by decide
  have htouch : touched eng5.index [("cat")] 1 :=
    ⟨("cat"), List.mem_singleton.mpr rfl, [0, 1], hidx, by decide⟩
  have htf : termFrequency (getDoc eng5.documents 1) ("cat") = 2 := by decide
  have hdl : (tokenize (getDoc eng5.documents 1).Content).length = 3 := by decide
  have hN : eng5.documents.length = 3 := rfl
  have havg : eng5.avgDocLength = 22 / 3 := by
    simp only [eng5, buildEngine, docs5, List.foldl_cons, List.foldl_nil, List.length_cons,
      List.length_nil]
    norm_num [String.length]
  have hk1 : eng5.k1 = 1.2 := rfl
  have hk2 : eng5.k2 = 0.75 := rfl
  refine ⟨fun doc t h => by rw [termFrequency, h], by decide, by decide, ?_, ?_⟩
  · rw [CalculateTFIDFScore, calcScores_lookup, if_pos htouch]
    simp only [contribTotal, List.map_cons, List.map_nil, List.sum_cons, List.sum_nil, hidx,
      tfidfContrib, htf, hN]
    norm_num
  · rw [CalculateBM25Score, calcScores_lookup, if_pos htouch]
    simp only [contribTotal, List.map_cons, List.map_nil, List.sum_cons, List.sum_nil, hidx,
      bm25Contrib, htf, hdl, hN, havg, hk1, hk2]
    norm_num
    ring_nf

/-- Witness for claim C5 at a concrete input: `cat` is already lowercase and
its frequency in `"Category"` is the case-insensitive substring count. -/
theorem term_frequency_substring_witness :
    lowerStr ("cat") = ("cat" : String) ∧
    termFrequency ⟨0, ("Category"), 0⟩ ("cat") =
      stringsCount (lowerStr ("Category")) (lowerStr ("cat")) :=
  ⟨by decide, term_frequency_substring.1 ⟨0, ("Category"), 0⟩ ("cat") (by decide)⟩

theorem addPosting_other (idx : InvertedIndex) (tok : String) (id : Int) (t : String)
    (h : t ≠ tok) : (addPosting idx tok id) t = idx t := by
  simp [addPosting, h]

theorem mem_addPosting (idx : InvertedIndex) (tok : String) (id : Int) (t : String) (d : Int)
    (h : d ∈ (idx t).getD []) : d ∈ ((addPosting idx tok id) t).getD [] := by
  unfold addPosting
  by_cases ht : t = tok
  · subst ht
    simp only [if_pos rfl, Option.getD_some]
    exact List.mem_append.mpr (Or.inl h)
  · simpa [ht] using h

theorem addPosting_entries (idx : InvertedIndex) (tok : String) (id : Int) (t : String) (d : Int)
    (h : d ∈ ((addPosting idx tok id) t).getD []) : d ∈ (idx t).getD [] ∨ d = id := by
  unfold addPosting at h
  by_cases ht : t = tok
  · subst ht
    simp only [if_pos rfl, Option.getD_some] at h
    rcases List.mem_append.mp h with h1 | h1
    · exact Or.inl h1
    · exact Or.inr (List.mem_singleton.mp h1)
  · rw [if_neg ht] at h
    exact Or.inl h

theorem foldTokens_preserve (id : Int) (toks : List String) :
    ∀ (idx : InvertedIndex) (t : String) (d : Int), d ∈ (idx t).getD [] →
      d ∈ ((toks.foldl (fun idx token => addPosting idx token id) idx) t).getD [] := by
  induction toks with
  | nil => intro idx t d h; exact h
  | cons tok rest ih =>
    intro idx t d h
    exact ih (addPosting idx tok id) t d (mem_addPosting idx tok id t d h)

theorem foldTokens_self (id : Int) (toks : List String) :
    ∀ (idx : InvertedIndex) (t : String), t ∈ toks →
      id ∈ ((toks.foldl (fun idx token => addPosting idx token id) idx) t).getD [] := by
  induction toks with
  | nil => intro idx t h; exact absurd h (List.not_mem_nil t)
  | cons tok rest ih =>
    intro idx t h
    rcases List.mem_cons.mp h with rfl | h1
    · refine foldTokens_preserve id rest _ _ id ?_
      simp [addPosting]
    · exact ih (addPosting idx tok id) t h1

theorem foldTokens_other (id : Int) (toks : List String) :
    ∀ (idx : InvertedIndex) (t : String), t ∉ toks →
      (toks.foldl (fun idx token => addPosting idx token id) idx) t = idx t := by
  induction toks with
  | nil => intro idx t _; rfl
  | cons tok rest ih =>
    intro idx t h
    have h1 : t ≠ tok := fun he => h (he ▸ List.mem_cons_self tok rest)
    have h2 : t ∉ rest := fun hm => h (List.mem_cons_of_mem tok hm)
    rw [List.foldl_cons, ih (addPosting idx tok id) t h2, addPosting_other idx tok id t h1]

theorem foldTokens_entries (Q : Int → Prop) (id : Int) (hid : Q id) (toks : List String) :
    ∀ idx : InvertedIndex, (∀ t d, d ∈ (idx t).getD [] → Q d) →
      ∀ t d, d ∈ ((toks.foldl (fun idx token => addPosting idx token id) idx) t).getD [] → Q d := by
  induction toks with
  | nil => intro idx hidx t d h; exact hidx t d h
  | cons tok rest ih =>
    intro idx hidx t d h
    refine ih (addPosting idx tok id) ?_ t d h
    intro t1 d1 h1
    rcases addPosting_entries idx tok id t1 d1 h1 with h2 | rfl
    · exact hidx t1 d1 h2
    · exact hid

theorem foldDocs_preserve (docs : List Document) :
    ∀ (idx : InvertedIndex) (t : String) (d : Int), d ∈ (idx t).getD [] →
      d ∈ ((docs.foldl (fun idx doc =>
        (tokenize doc.Content).foldl (fun idx token => addPosting idx token doc.ID) idx) idx)
          t).getD [] := by
  induction docs with
  | nil => intro idx t d h; exact h
  | cons doc rest ih =>
    intro idx t d h
    exact ih _ t d (foldTokens_preserve doc.ID (tokenize doc.Content) idx t d h)

theorem foldDocs_mem (docs : List Document) :
    ∀ (idx : InvertedIndex) (doc : Document) (t : String), doc ∈ docs →
      t ∈ tokenize doc.Content →
      doc.ID ∈ ((docs.foldl (fun idx doc =>
        (tokenize doc.Content).foldl (fun idx token => addPosting idx token doc.ID) idx) idx)
          t).getD [] := by
  induction docs with
  | nil => intro idx doc t h; exact absurd h (List.not_mem_nil doc)
  | cons doc0 rest ih =>
    intro idx doc t h ht
    rcases List.mem_cons.mp h with rfl | h1
    · exact foldDocs_preserve rest _ t doc.ID (foldTokens_self doc.ID (tokenize doc.Content) idx t ht)
    · exact ih _ doc t h1 ht

theorem foldDocs_other (docs : List Document) :
    ∀ (idx : InvertedIndex) (t : String), (∀ doc ∈ docs, t ∉ tokenize doc.Content) →
      (docs.foldl (fun idx doc =>
        (tokenize doc.Content).foldl (fun idx token => addPosting idx token doc.ID) idx) idx) t
        = idx t := by
  induction docs with
  | nil => intro idx t _; rfl
  | cons doc0 rest ih =>
    intro idx t h
    rw [List.foldl_cons, ih _ t (fun doc hd => h doc (List.mem_cons_of_mem doc0 hd)),
      foldTokens_other doc0.ID (tokenize doc0.Content) idx t (h doc0 (List.mem_cons_self doc0 rest))]

theorem foldDocs_entries (Q : Int → Prop) (docs : List Document) :
    ∀ idx : InvertedIndex, (∀ doc ∈ docs, Q doc.ID) → (∀ t d, d ∈ (idx t).getD [] → Q d) →
      ∀ t d, d ∈ ((docs.foldl (fun idx doc =>
        (tokenize doc.Content).foldl (fun idx token => addPosting idx token doc.ID) idx) idx)
          t).getD [] → Q d := by
  induction docs with
  | nil => intro idx _ hidx t d h; exact hidx t d h
  | cons doc0 rest ih =>
    intro idx hdocs hidx t d h
    refine ih _ (fun doc hd => hdocs doc (List.mem_cons_of_mem doc0 hd)) ?_ t d h
    exact foldTokens_entries Q doc0.ID (hdocs doc0 (List.mem_cons_self doc0 rest))
      (tokenize doc0.Content) idx hidx

/-- Claim C6: after `BuildInvertedIndex`, every document's id is in the
posting list of every term of its tokenized (lowercased, whitespace-split)
content, and a term occurring in no document is absent from the index. -/
theorem build_index_membership (docs : List Document) (t : String) :
    (∀ doc ∈ docs, t ∈ tokenize doc.Content →
        doc.ID ∈ ((BuildInvertedIndex docs) t).getD [])
    ∧ ((∀ doc ∈ docs, t ∉ tokenize doc.Content) → BuildInvertedIndex docs t = none) := by
  constructor
  · intro doc hd ht
    exact foldDocs_mem docs _ doc t hd ht
  · intro h
    exact foldDocs_other docs _ t h

/-- Witness for claim C6 at a concrete input: over `[{0, "cat dog"}]`, id 0
is in the posting list of `cat`, and `fish` is absent from the index. -/
theorem build_index_membership_witness :
    (0 : Int) ∈ ((BuildInvertedIndex [⟨0, ("cat dog"), 0⟩]) ("cat")).getD [] ∧
    BuildInvertedIndex [⟨0, ("cat dog"), 0⟩] ("fish") = none := by
  constructor
  · exact (build_index_membership [⟨0, ("cat dog"), 0⟩] ("cat")).1 ⟨0, ("cat dog"), 0⟩
      (List.mem_singleton.mpr rfl) (by decide)
  · refine (build_index_membership [⟨0, ("cat dog"), 0⟩] ("fish")).2 ?_
    intro doc hd
    rw [List.mem_singleton] at hd
    subst hd
    decide

/-- Claim C10: if the corpus stores each document at the position equal to
its id (ids dense 0..N-1, as `main` constructs it), then every document id
in any posting list of the built index is a valid index into the documents
list, so `se.documents[docID]` never goes out of bounds. -/
theorem posting_ids_in_bounds (docs : List Document)
    (h : ∀ (i : ℕ) (hi : i < docs.length), (docs.get ⟨i, hi⟩).ID = i) :
    ∀ (t : String) (ds : List Int) (d : Int),
      BuildInvertedIndex docs t = some ds → d ∈ ds →
        0 ≤ d ∧ d.toNat < docs.length := by
  intro t ds d hds hmem
  have hQ : ∃ doc ∈ docs, doc.ID = d := by
    have hbase : ∀ (t1 : String) (d1 : Int),
        d1 ∈ (((fun _ => none) : InvertedIndex) t1).getD [] → ∃ doc ∈ docs, doc.ID = d1 := by
      intro t1 d1 h1
      simp only [Option.getD_none] at h1
      exact absurd h1 (List.not_mem_nil d1)
    have hmem1 : d ∈ ((BuildInvertedIndex docs) t).getD [] := by
      rw [hds]
      exact hmem
    exact foldDocs_entries (fun e => ∃ doc ∈ docs, doc.ID = e) docs (fun _ => none)
      (fun doc hd => ⟨doc, hd, rfl⟩) hbase t d hmem1
  obtain ⟨doc, hdoc, hid⟩ := hQ
  obtain ⟨⟨i, hi⟩, hget⟩ := List.mem_iff_get.mp hdoc
  have : doc.ID = i := by rw [← hget]; exact h i hi
  rw [← hid, this]
  exact ⟨Int.ofNat_nonneg i, by simpa using hi⟩

/-- Witness for claim C10 at a concrete two-document corpus with dense
ids. -/
theorem posting_ids_in_bounds_witness :
    (0 : Int) ≤ 1 ∧ (1 : Int).toNat < ([⟨0, ("cat"), 0⟩, ⟨1, ("dog cat"), 0⟩] : List Document).length :=
  posting_ids_in_bounds [⟨0, ("cat"), 0⟩, ⟨1, ("dog cat"), 0⟩] (by decide) ("cat") [0, 1] 1
    (by decide) (by decide)
theorem Search_def (se : SearchEngine) (query : String) :
    Search se query =
      (if (List.insertionSort scoreGE ((CalculateTFIDFScore se (tokenize query)).map
            (fun p => Document.mk p.1 (getDoc se.documents p.1).Content p.2))).length > 10
       then (List.insertionSort scoreGE ((CalculateTFIDFScore se (tokenize query)).map
            (fun p => Document.mk p.1 (getDoc se.documents p.1).Content p.2))).take 10
       else List.insertionSort scoreGE ((CalculateTFIDFScore se (tokenize query)).map
            (fun p => Document.mk p.1 (getDoc se.documents p.1).Content p.2))) := rfl

theorem smAdd_keys_mem (m : ScoreMap) (d : Int) (v : ℝ) (e : Int)
    (h : e ∈ (smAdd m d v).map Prod.fst) : e ∈ m.map Prod.fst ∨ e = d := by
  induction m with
  | nil =>
    simp only [smAdd, List.map_cons, List.map_nil, List.mem_singleton] at h
    exact Or.inr h
  | cons p rest ih =>
    obtain ⟨k, w⟩ := p
    by_cases hkd : k = d
    · subst hkd
      simp only [smAdd, if_pos rfl] at h
      exact Or.inl h
    · simp only [smAdd, if_neg hkd, List.map_cons, List.mem_cons] at h
      rcases h with rfl | h1
      · exact Or.inl (List.mem_cons_self e _)
      · rcases ih h1 with h2 | h2
        · exact Or.inl (List.mem_cons_of_mem k h2)
        · exact Or.inr h2

theorem smAdd_keys_nodup (m : ScoreMap) (d : Int) (v : ℝ)
    (h : (m.map Prod.fst).Nodup) : ((smAdd m d v).map Prod.fst).Nodup := by
  induction m with
  | nil => simp [smAdd]
  | cons p rest ih =>
    obtain ⟨k, w⟩ := p
    rw [List.map_cons, List.nodup_cons] at h
    by_cases hkd : k = d
    · subst hkd
      have he : smAdd ((k, w) :: rest) k v = (k, w + v) :: rest := by
        simp [smAdd]
      rw [he, List.map_cons, List.nodup_cons]
      exact h
    · have he : smAdd ((k, w) :: rest) d v = (k, w) :: smAdd rest d v := by
        simp [smAdd, hkd]
      rw [he, List.map_cons, List.nodup_cons]
      refine ⟨fun hk => ?_, ih h.2⟩
      rcases smAdd_keys_mem rest d v k hk with h2 | h2
      · exact h.1 h2
      · exact hkd h2

theorem foldl_smAdd_keys_nodup (c : Int → ℝ) (ds : List Int) :
    ∀ m : ScoreMap, (m.map Prod.fst).Nodup →
      ((ds.foldl (fun m d => smAdd m d (c d)) m).map Prod.fst).Nodup := by
  induction ds with
  | nil => intro m h; exact h
  | cons d rest ih =>
    intro m h
    exact ih (smAdd m d (c d)) (smAdd_keys_nodup m d (c d) h)

theorem calcScores_keys_nodup (contrib : String → List Int → Int → ℝ)
    (index : InvertedIndex) (tokens : List String) :
    ((calcScores contrib index tokens).map Prod.fst).Nodup := by
  unfold calcScores
  have key : ∀ (toks : List String) (m : ScoreMap), (m.map Prod.fst).Nodup →
      ((toks.foldl (fun m token =>
        match index token with
        | none => m
        | some docSet => docSet.foldl (fun m d => smAdd m d (contrib token docSet d)) m) m).map
          Prod.fst).Nodup := by
    intro toks
    induction toks with
    | nil => intro m h; exact h
    | cons t ts ih =>
      intro m h
      simp only [List.foldl_cons]
      cases hidx : index t with
      | none => simp only [hidx]; exact ih m h
      | some ds =>
        simp only [hidx]
        exact ih _ (foldl_smAdd_keys_nodup _ ds m h)
  exact key tokens [] (by simp)

theorem calcScores_absent (contrib : String → List Int → Int → ℝ)
    (index : InvertedIndex) (tokens : List String)
    (h : ∀ t ∈ tokens, index t = none) : calcScores contrib index tokens = [] := by
  unfold calcScores
  have key : ∀ (toks : List String) (m : ScoreMap), (∀ t ∈ toks, index t = none) →
      toks.foldl (fun m token =>
        match index token with
        | none => m
        | some docSet => docSet.foldl (fun m d => smAdd m d (contrib token docSet d)) m) m = m := by
    intro toks
    induction toks with
    | nil => intro m _; rfl
    | cons t ts ih =>
      intro m hall
      simp only [List.foldl_cons, hall t (List.mem_cons_self t ts)]
      exact ih m (fun t1 h1 => hall t1 (List.mem_cons_of_mem t h1))
  exact key tokens [] h

/-- Claim C7: for every engine and query, the result sequence returned by
`Search` is sorted by descending score: each adjacent pair `(a, b)`
satisfies `a.Score >= b.Score`. -/
theorem search_sorted_desc (se : SearchEngine) (query : String) :
    List.Chain' (fun a b => b.Score ≤ a.Score) (Search se query) := by
  rw [Search_def]
  have hs : List.Sorted scoreGE (List.insertionSort scoreGE
      ((CalculateTFIDFScore se (tokenize query)).map
        (fun p => Document.mk p.1 (getDoc se.documents p.1).Content p.2))) :=
    List.sorted_insertionSort scoreGE _
  by_cases h : (List.insertionSort scoreGE ((CalculateTFIDFScore se (tokenize query)).map
      (fun p => Document.mk p.1 (getDoc se.documents p.1).Content p.2))).length > 10
  · rw [if_pos h]
    exact List.Pairwise.chain' (List.Pairwise.sublist (List.take_sublist 10 _) hs)
  · rw [if_neg h]
    exact List.Pairwise.chain' hs

/-- Claim C8: for every engine and query, `Search` returns at most 10
results, and returns fewer than 10 exactly when fewer than 10 documents
received a score (the score map's keys are pairwise distinct, so its size
counts scored documents). -/
theorem search_limit_ten (se : SearchEngine) (query : String) :
    (Search se query).length ≤ 10
    ∧ ((Search se query).length < 10 ↔
        (CalculateTFIDFScore se (tokenize query)).length < 10)
    ∧ ((CalculateTFIDFScore se (tokenize query)).map Prod.fst).Nodup := by
  have h1 : (List.insertionSort scoreGE ((CalculateTFIDFScore se (tokenize query)).map
      (fun p => Document.mk p.1 (getDoc se.documents p.1).Content p.2))).length =
      (CalculateTFIDFScore se (tokenize query)).length := by
    rw [(List.perm_insertionSort scoreGE _).length_eq, List.length_map]
  have hsearch : (Search se query).length =
      min (CalculateTFIDFScore se (tokenize query)).length 10 := by
    rw [Search_def]
    by_cases h : (List.insertionSort scoreGE ((CalculateTFIDFScore se (tokenize query)).map
        (fun p => Document.mk p.1 (getDoc se.documents p.1).Content p.2))).length > 10
    · rw [if_pos h, List.length_take, h1]
      rw [h1] at h
      omega
    · rw [if_neg h, h1]
      rw [h1] at h
      omega
  refine ⟨by omega, by omega, calcScores_keys_nodup (tfidfContrib se) se.index (tokenize query)⟩

/-- Claim C9: a query that tokenizes to nothing (empty or whitespace-only),
or whose tokens are all absent from the index, makes both scorers return an
empty score map and `Search` return an empty result list — no error path
exists. -/
theorem search_empty_cases (se : SearchEngine) (query : String)
    (h : tokenize query = [] ∨ ∀ t ∈ tokenize query, se.index t = none) :
    CalculateTFIDFScore se (tokenize query) = []
    ∧ CalculateBM25Score se (tokenize query) = []
    ∧ Search se query = [] := by
  have hts : ∀ contrib : String → List Int → Int → ℝ,
      calcScores contrib se.index (tokenize query) = [] := by
    intro contrib
    rcases h with h | h
    · rw [h]
      rfl
    · exact calcScores_absent contrib se.index (tokenize query) h
  have h1 : CalculateTFIDFScore se (tokenize query) = [] := hts (tfidfContrib se)
  refine ⟨h1, hts (bm25Contrib se), ?_⟩
  rw [Search_def, h1]
  simp

/-- Witness for claim C9: a one-word query absent from a one-document
index. -/
theorem search_empty_cases_witness :
    (∀ t ∈ tokenize ("unknownword"),
        (buildEngine [⟨0, ("cat"), 0⟩]).index t = none) ∧
    Search (buildEngine [⟨0, ("cat"), 0⟩]) ("unknownword") = [] :=
  ⟨by decide,
    (search_empty_cases (buildEngine [⟨0, ("cat"), 0⟩]) ("unknownword")
      (Or.inr (by decide))).2.2⟩
end MiniSearch
